import Mathlib

/-!
Verification of the pronunciation-scoring and text-comparison engine of the
Arabic Bible reading tutor (module `ArabicSpeechRecognition`).

Shallow embedding conventions:
* JavaScript strings are modelled as Lean `String` (sequences of Unicode
  scalar values via `String.data`).
* JavaScript numbers appearing in the scoring arithmetic are modelled as
  exact rationals (`ℚ`); the source's `0.7` / `0.3` weights become `7/10`
  and `3/10`.
* Objects returned by the source functions become Lean structures; a field
  that the source leaves absent (`undefined`) on some code path is an
  `Option` field holding `none` on that path.
-/

/-! ## Text Normalizer (`normalizeArabicText`) -/

/-- The Arabic diacritic / tashkeel ranges removed by the first `replace`
of `normalizeArabicText`: `[ً-ٰٟۖ-ۭ]`. -/
def isTashkeel (c : Char) : Bool :=
  (0x64b ≤ c.toNat && c.toNat ≤ 0x65f) || c.toNat = 0x670 ||
    (0x6d6 ≤ c.toNat && c.toNat ≤ 0x6ed)

/-- Second `replace`: alef variants `آ` (U+0622), `أ` (U+0623), `إ` (U+0625)
collapse to bare alef `ا` (U+0627). -/
def mapAlef (c : Char) : Char :=
  if c = 'آ' || c = 'أ' || c = 'إ' then 'ا' else c

/-- Third `replace`: teh marbuta `ة` (U+0629) becomes heh `ه` (U+0647). -/
def mapTehMarbuta (c : Char) : Char :=
  if c = 'ة' then 'ه' else c

/-- Fourth `replace`: yeh variants `ى` (U+0649) and `ئ` (U+0626) collapse to
plain yeh `ي` (U+064A). -/
def mapYeh (c : Char) : Char :=
  if c = 'ى' || c = 'ئ' then 'ي' else c

/-- The character class matched by JavaScript `\s` (and removed at the ends
by `String.prototype.trim`): space, `\t`, `\n`, `\v`, `\f`, `\r`, NBSP,
Ogham space mark, the U+2000–U+200A spaces, line/paragraph separators,
narrow NBSP, medium mathematical space, ideographic space, and BOM. -/
def isJsWhitespace (c : Char) : Bool :=
  c.toNat = 32 || c.toNat = 9 || c.toNat = 10 || c.toNat = 11 ||
    c.toNat = 12 || c.toNat = 13 ||
    c.toNat = 0xa0 || c.toNat = 0x1680 ||
    (0x2000 ≤ c.toNat && c.toNat ≤ 0x200a) ||
    c.toNat = 0x2028 || c.toNat = 0x2029 || c.toNat = 0x202f ||
    c.toNat = 0x205f || c.toNat = 0x3000 || c.toNat = 0xfeff

/-- State-carrying implementation of the whitespace collapse: `inRun`
records whether the previous character belonged to a whitespace run whose
single replacement `' '` has already been emitted. -/
def collapseAux : Bool → List Char → List Char
  | _, [] => []
  | inRun, c :: cs =>
    if isJsWhitespace c then
      if inRun then collapseAux true cs else ' ' :: collapseAux true cs
    else c :: collapseAux false cs

/-- Fifth `replace`: `/\s+/g` with a single space — every maximal run of
whitespace characters is replaced by one `' '`. -/
def collapseWhitespace (l : List Char) : List Char := collapseAux false l

/-- `String.prototype.trim`: drop whitespace from both ends. -/
def trimWhitespace (l : List Char) : List Char :=
  ((l.dropWhile isJsWhitespace).reverse.dropWhile isJsWhitespace).reverse

/-- `String.prototype.toLowerCase`, per character.  The embedding uses the
ASCII simple case mapping (`Char.toLower`); the JavaScript method in
addition lowercases other bicameral scripts, which never occur in the
Arabic/ASCII texts this module processes (Arabic has no case). -/
def jsToLower (c : Char) : Char := c.toLower

/-- `normalizeArabicText(text)`: the `if (!text) return ''` guard, then the
six chained transformations in source order — strip tashkeel, collapse the
alef variants, teh marbuta, yeh variants, collapse whitespace runs to a
single space, trim, lowercase. -/
def normalizeArabicText (text : String) : String :=
  if text = "" then "" else
    String.mk
      (List.map jsToLower
        (trimWhitespace
          (collapseWhitespace
            (List.map mapYeh
              (List.map mapTehMarbuta
                (List.map mapAlef
                  (List.filter (fun c => !isTashkeel c) text.data)))))))

/-! ## Word Aligner (`compareWordArrays`) -/

/-- First index at or after `i` where `w` occurs; the Option-valued core of
`Array.prototype.indexOf`. -/
def indexOfFrom (w : String) : List String → Nat → Option Nat
  | [], _ => none
  | x :: xs, i => if x = w then some i else indexOfFrom w xs (i + 1)

/-- `actual.indexOf(w)` with JavaScript's `-1` not-found convention. -/
def jsIndexOf (l : List String) (w : String) : Int :=
  match indexOfFrom w l 0 with
  | some i => (i : Int)
  | none => -1

/-- An entry of the `matches` list: `{word, expectedIndex, actualIndex}`. -/
structure WordMatch where
  word : String
  expectedIndex : Nat
  actualIndex : Nat
deriving Repr, DecidableEq

/-- An entry of the `missing` / `extra` lists: `{word, index}`. -/
structure IndexedWord where
  word : String
  index : Nat
deriving Repr, DecidableEq

/-- Result object of `compareWordArrays`. -/
structure WordComparison where
  score : ℚ
  «matches» : List WordMatch
  missing : List IndexedWord
  extra : List IndexedWord
  totalExpected : Nat
  totalActual : Nat
  matchedCount : Nat
deriving Repr, DecidableEq

/-- The `expected.forEach` loop of `compareWordArrays`, processing the word
at index `i` first: the word goes to `matches` (with the first index where
it occurs in `actual`) when `actual.indexOf(w) !== -1`, otherwise to
`missing`; the third component is the running `matchCount`. -/
def matchStep : List String → List String → Nat → List WordMatch × List IndexedWord × Nat
  | [], _, _ => ([], [], 0)
  | w :: ws, actual, i =>
    match indexOfFrom w actual 0 with
    | some k =>
      (⟨w, i, k⟩ :: (matchStep ws actual (i + 1)).1,
       (matchStep ws actual (i + 1)).2.1,
       (matchStep ws actual (i + 1)).2.2 + 1)
    | none =>
      ((matchStep ws actual (i + 1)).1,
       ⟨w, i⟩ :: (matchStep ws actual (i + 1)).2.1,
       (matchStep ws actual (i + 1)).2.2)

/-- The `actual.forEach` loop: each actual word not contained in `expected`
is recorded as extra with its index. -/
def extraStep (expected : List String) : List String → Nat → List IndexedWord
  | [], _ => []
  | a :: rest, i =>
    if expected.contains a then extraStep expected rest (i + 1)
    else ⟨a, i⟩ :: extraStep expected rest (i + 1)

/-- `compareWordArrays(expected, actual)`. -/
def compareWordArrays (expected actual : List String) : WordComparison :=
  let fm := matchStep expected actual 0
  { score := if expected.length > 0 then (fm.2.2 : ℚ) / (expected.length : ℚ) else 0
    «matches» := fm.1
    missing := fm.2.1
    extra := extraStep expected actual 0
    totalExpected := expected.length
    totalActual := actual.length
    matchedCount := fm.2.2 }

/-! ## Lexical Distance Engine (`levenshteinDistance`) -/

/-- Inner loop of the `levenshteinDistance` matrix fill: given the previous
row starting at column `j - 1` and the current row's value `left` at column
`j - 1`, produce the current row's entries for columns `j .. len(str1)`.
`matrix[i][j] = matrix[i-1][j-1]` on equal characters, else
`min(matrix[i-1][j-1]+1, matrix[i][j-1]+1, matrix[i-1][j]+1)`. -/
def rowAux (c2 : Char) : List Char → List Nat → Nat → List Nat
  | c1 :: cs, p0 :: p1 :: ps, left =>
    let cur := if c2 = c1 then p0 else min (p0 + 1) (min (left + 1) (p1 + 1))
    cur :: rowAux c2 cs (p1 :: ps) cur
  | _, _, _ => []

/-- Outer loop: one row per character of `str2`, row `i` being
`i :: rowAux …` (the `matrix[i] = [i]` initialisation). -/
def levGo (s1 : List Char) : List Char → List Nat → Nat → List Nat
  | [], prev, _ => prev
  | c2 :: rest, prev, i => levGo s1 rest (i :: rowAux c2 s1 prev i) (i + 1)

/-- `levenshteinDistance(str1, str2)`: dynamic program over
`matrix[0..len2][0..len1]` with `matrix[0][j] = j`, returning
`matrix[len2][len1]` (the last entry of the last row). -/
def levenshteinDistance (str1 str2 : String) : Nat :=
  (levGo str1.data str2.data (List.range (str1.data.length + 1)) 1).getD str1.data.length 0

/-- `calculateLevenshteinSimilarity(str1, str2)`:
`maxLength === 0 ? 1 : 1 - distance / maxLength`. -/
def calculateLevenshteinSimilarity (str1 str2 : String) : ℚ :=
  if max str1.length str2.length = 0 then 1
  else 1 - (levenshteinDistance str1 str2 : ℚ) /
    ((max str1.length str2.length : Nat) : ℚ)

/-! ## Scorer (`compareTexts`) -/

/-- The `details` object of a fuzzy `compareTexts` result. -/
structure ComparisonDetails where
  expectedWords : List String
  actualWords : List String
  matchedWords : List WordMatch
  missingWords : List IndexedWord
  extraWords : List IndexedWord
deriving Repr, DecidableEq

/-- Result object of `compareTexts`.  The exact-match path returns only
`{score, type}`; `wordMatches`, `characterSimilarity` and `details` are
absent (`none`) there. -/
structure ComparisonResult where
  score : ℚ
  type : String
  wordMatches : Option WordComparison
  characterSimilarity : Option ℚ
  details : Option ComparisonDetails
deriving Repr, DecidableEq

/-- `split(' ')` followed by `.filter(w => w.length > 0)`. -/
def splitWords (s : String) : List String :=
  (s.split (fun c => c = ' ')).filter (fun w => w.length > 0)

/-- `compareTexts(expected, actual)`. -/
def compareTexts (expected actual : String) : ComparisonResult :=
  let normalizedExpected := normalizeArabicText expected
  let normalizedActual := normalizeArabicText actual
  if normalizedExpected = normalizedActual then
    { score := 1, type := "exact", wordMatches := none,
      characterSimilarity := none, details := none }
  else
    let expectedWords := splitWords normalizedExpected
    let actualWords := splitWords normalizedActual
    let wordMatches := compareWordArrays expectedWords actualWords
    let charSimilarity := calculateLevenshteinSimilarity normalizedExpected normalizedActual
    let combinedScore := wordMatches.score * (7 / 10 : ℚ) + charSimilarity * (3 / 10 : ℚ)
    { score := combinedScore
      type := "fuzzy"
      wordMatches := some wordMatches
      characterSimilarity := some charSimilarity
      details := some
        { expectedWords := expectedWords
          actualWords := actualWords
          matchedWords := wordMatches.«matches»
          missingWords := wordMatches.missing
          extraWords := wordMatches.extra } }

/-! ## Classic edit distance (reference recurrence and edit scripts)

The claims describe `levenshteinDistance` as the classic minimal number of
single-character insertions, deletions and substitutions.  `lev` is the
textbook recurrence; `EditRel n xs ys` says `xs` can be transformed into
`ys` by an edit script of `n` unit-cost operations (presented as a
left-to-right alignment: each constructor keeps, substitutes, inserts or
deletes one character). -/

/-- Textbook Levenshtein recurrence. -/
def lev : List Char → List Char → Nat
  | [], ys => ys.length
  | x :: xs, [] => (x :: xs).length
  | x :: xs, y :: ys =>
    if x = y then lev xs ys
    else 1 + min (lev xs ys) (min (lev (x :: xs) ys) (lev xs (y :: ys)))
termination_by xs ys => xs.length + ys.length
decreasing_by all_goals simp_arith

/-- `EditRel n xs ys`: an edit script of `n` single-character operations
(substitute / insert / delete, unit cost each) transforms `xs` into `ys`. -/
inductive EditRel : Nat → List Char → List Char → Prop
  | nil : EditRel 0 [] []
  | keep (c : Char) {n : Nat} {xs ys : List Char} :
      EditRel n xs ys → EditRel n (c :: xs) (c :: ys)
  | subst (c d : Char) {n : Nat} {xs ys : List Char} :
      c ≠ d → EditRel n xs ys → EditRel (n + 1) (c :: xs) (d :: ys)
  | ins (d : Char) {n : Nat} {xs ys : List Char} :
      EditRel n xs ys → EditRel (n + 1) xs (d :: ys)
  | del (c : Char) {n : Nat} {xs ys : List Char} :
      EditRel n xs ys → EditRel (n + 1) (c :: xs) ys

/-! ## Recognition Session Controller

State machine of the listening lifecycle: the mutable fields of the
`ArabicSpeechRecognition` instance that the timing logic reads and writes,
the recognizer callbacks installed by `setupEventListeners`, the two timer
callbacks, and the public `start` / `stop` / `abort` methods.  A pending
`setTimeout` is modelled as a Boolean "armed" flag; a timer-fire event on an
unarmed timer is a no-op (a cleared timeout never runs).  `Date.now()` is
passed in as `now`. -/

/-- Mutable session state of `ArabicSpeechRecognition`. -/
structure RecState where
  isListening : Bool
  hasReceivedSpeech : Bool
  lastSpeechTime : Option Nat
  silenceTimer : Bool
  maxRecordingTimer : Bool
  enableAutoStop : Bool
deriving Repr, DecidableEq

/-- Externally visible acts of a callback: calls into the browser recognizer
and `emit(event, data)` notifications. -/
inductive SessionAction where
  | recognitionStart
  | recognitionStop
  | recognitionAbort
  | emit (event : String) (payload : Option String)
deriving Repr, DecidableEq

/-- `clearSilenceTimer()`. -/
def clearSilenceTimer (s : RecState) : RecState :=
  { s with silenceTimer := false }

/-- `clearTimers()`. -/
def clearTimers (s : RecState) : RecState :=
  { s with silenceTimer := false, maxRecordingTimer := false }

/-- `startSilenceTimer()`: no-op unless `enableAutoStop`; otherwise clears
any pending silence timer and arms a fresh one. -/
def startSilenceTimer (s : RecState) : RecState :=
  if !s.enableAutoStop then s else { clearSilenceTimer s with silenceTimer := true }

/-- `stop()`: calls `recognition.stop()` only while listening, then clears
both timers (audio-stream cleanup is outside the modelled state). -/
def stopMethod (s : RecState) : RecState × List SessionAction :=
  (clearTimers s, if s.isListening then [SessionAction.recognitionStop] else [])

/-- `abort()`: like `stop()` but through `recognition.abort()`. -/
def abortMethod (s : RecState) : RecState × List SessionAction :=
  (clearTimers s, if s.isListening then [SessionAction.recognitionAbort] else [])

/-- `start()`: `if (this.isListening) return false;` else request the
microphone and call `recognition.start()`, returning `true` (the
non-throwing path; state changes only happen later in `onstart`). -/
def startMethod (s : RecState) : Bool × RecState × List SessionAction :=
  if s.isListening then (false, s, [])
  else (true, s, [SessionAction.recognitionStart])

/-- The callback-triggering events of one session: the recognizer events
wired in `setupEventListeners`, the two timer expirations, and the public
stop/abort calls. -/
inductive RecEvent where
  | onstart
  | onend
  | onspeechstart
  | onspeechend
  | silenceTimerFire
  | maxTimerFire
  | stopCall
  | abortCall
deriving Repr, DecidableEq

/-- One callback dispatch, faithful to `setupEventListeners`,
`startSilenceTimer` and the two `setTimeout` bodies. -/
def step (s : RecState) (now : Nat) : RecEvent → RecState × List SessionAction
  | .onstart =>
    ({ s with isListening := true, hasReceivedSpeech := false,
              lastSpeechTime := some now, maxRecordingTimer := true },
     [SessionAction.emit "start" none])
  | .onend =>
    (clearTimers { s with isListening := false }, [SessionAction.emit "end" none])
  | .onspeechstart =>
    (clearSilenceTimer { s with hasReceivedSpeech := true, lastSpeechTime := some now },
     [SessionAction.emit "speechstart" none])
  | .onspeechend =>
    (startSilenceTimer { s with lastSpeechTime := some now },
     [SessionAction.emit "speechend" none])
  | .silenceTimerFire =>
    if s.silenceTimer then
      let s1 := { s with silenceTimer := false }
      if s1.isListening && s1.hasReceivedSpeech then
        let r := stopMethod s1
        (r.1, r.2 ++ [SessionAction.emit "timeout" (some "silence")])
      else (s1, [])
    else (s, [])
  | .maxTimerFire =>
    if s.maxRecordingTimer then
      let s1 := { s with maxRecordingTimer := false }
      if s1.isListening then
        let r := stopMethod s1
        (r.1, r.2 ++ [SessionAction.emit "timeout" (some "max_recording_time")])
      else (s1, [])
    else (s, [])
  | .stopCall => stopMethod s
  | .abortCall => abortMethod s

/-- Run a sequence of timestamped events, concatenating the emitted
actions. -/
def run (s : RecState) : List (RecEvent × Nat) → RecState × List SessionAction
  | [] => (s, [])
  | (e, t) :: rest =>
    let r1 := step s t e
    let r2 := run r1.1 rest
    (r2.1, r1.2 ++ r2.2)

/-! ## Theorems: Scorer paths (C1, C3) -/

/-- **C1**: whenever the two normalized inputs differ, `compareTexts`
returns classification `"fuzzy"` with combined score
`0.7 × wordMatchRatio + 0.3 × characterSimilarity`, the ratio taken from
the word aligner on the split word lists and the similarity from the
Levenshtein engine on the two full normalized strings. -/
theorem compareTexts_fuzzy_score (expected actual : String)
    (h : normalizeArabicText expected ≠ normalizeArabicText actual) :
    (compareTexts expected actual).type = "fuzzy" ∧
    (compareTexts expected actual).score =
      (7 / 10 : ℚ) * (compareWordArrays (splitWords (normalizeArabicText expected))
          (splitWords (normalizeArabicText actual))).score +
      (3 / 10 : ℚ) * calculateLevenshteinSimilarity (normalizeArabicText expected)
          (normalizeArabicText actual) := by
  unfold compareTexts
  simp only [if_neg h]
  exact ⟨trivial, by ring⟩

/-- Witness for C1 at a concrete pair with differing normalized forms. -/
theorem compareTexts_fuzzy_score_witness :
    (compareTexts "ab" "b").type = "fuzzy" ∧
    (compareTexts "ab" "b").score =
      (7 / 10 : ℚ) * (compareWordArrays (splitWords (normalizeArabicText "ab"))
          (splitWords (normalizeArabicText "b"))).score +
      (3 / 10 : ℚ) * calculateLevenshteinSimilarity (normalizeArabicText "ab")
          (normalizeArabicText "b") :=
  compareTexts_fuzzy_score "ab" "b" (by decide)

/-- **C3 (amended)**: when the normalized inputs coincide, `compareTexts`
short-circuits to `{score: 1.0, type: "exact"}`; the alignment and
character-similarity fields are *absent* (the source object has no
`wordMatches`/`characterSimilarity`/`details` keys on this path), so no
alignment or distance computation runs. -/
theorem compareTexts_exact_path (expected actual : String)
    (h : normalizeArabicText expected = normalizeArabicText actual) :
    compareTexts expected actual =
      { score := 1, type := "exact", wordMatches := none,
        characterSimilarity := none, details := none } := by
  unfold compareTexts
  simp only [if_pos h]

/-- Witness for C3's amended theorem at `compare(s, s)`. -/
theorem compareTexts_exact_path_witness :
    compareTexts "a" "a" =
      { score := 1, type := "exact", wordMatches := none,
        characterSimilarity := none, details := none } :=
  compareTexts_exact_path "a" "a" rfl

/-- **C3 counterexample**: on the exact path the result reports *no*
character similarity (the field is absent, not `1.0`) and *no* alignment,
refuting the claimed `charSimilarity=1.0` / trivial-full-match alignment. -/
theorem compareTexts_exact_no_stats :
    (compareTexts "a" "a").characterSimilarity ≠ some 1 ∧
    (compareTexts "a" "a").wordMatches = none := by
  exact ⟨by decide, by decide⟩

/-! ## Theorems: Session Controller (C8, C9) -/

/-- A session in the listening state (as left by `onstart`): used as the
concrete input of the session-lifecycle claims. -/
def listeningState : RecState :=
  { isListening := true, hasReceivedSpeech := false, lastSpeechTime := some 0,
    silenceTimer := false, maxRecordingTimer := true, enableAutoStop := true }

/-- **C8 (amended)**: calling `start()` while already listening returns
`false` and does nothing: the state is unchanged and no action is taken —
in particular no second recognition stream is started and no error of any
kind is raised or emitted. -/
theorem start_while_listening (s : RecState) (h : s.isListening = true) :
    startMethod s = (false, s, []) := by
  simp [startMethod, h]

/-- Witness for C8's amended theorem on a concrete listening state. -/
theorem start_while_listening_witness :
    startMethod listeningState = (false, listeningState, []) :=
  start_while_listening listeningState rfl

/-- **C8 counterexample**: on a listening session the second `start()`
merely returns `false`; its action list is empty, so no
`AlreadyActiveError` (nor any other error) is raised or emitted, refuting
the claimed failure mode. -/
theorem start_while_listening_no_error :
    (startMethod listeningState).1 = false ∧
    (startMethod listeningState).2.1 = listeningState ∧
    (startMethod listeningState).2.2 = [] := by
  exact ⟨by decide, by decide, by decide⟩

/-- One dispatch of any event other than `onspeechstart` keeps
`hasReceivedSpeech` false and cannot emit a silence timeout while
`hasReceivedSpeech` is false. -/
theorem step_no_silence_timeout (s : RecState) (now : Nat) (e : RecEvent)
    (hs : s.hasReceivedSpeech = false) (he : e ≠ RecEvent.onspeechstart) :
    (step s now e).1.hasReceivedSpeech = false ∧
    SessionAction.emit "timeout" (some "silence") ∉ (step s now e).2 := by
  cases e <;>
    simp_all [step, clearTimers, clearSilenceTimer, startSilenceTimer,
      stopMethod, abortMethod] <;>
    split_ifs <;> simp_all

/-- Over any event sequence with no `onspeechstart`, a session whose
`hasReceivedSpeech` flag is false never emits a silence timeout. -/
theorem run_no_silence_timeout (evs : List (RecEvent × Nat)) : ∀ s : RecState,
    s.hasReceivedSpeech = false →
    (∀ p ∈ evs, p.1 ≠ RecEvent.onspeechstart) →
    SessionAction.emit "timeout" (some "silence") ∉ (run s evs).2 := by
  induction evs with
  | nil => intro s _ _; simp [run]
  | cons p rest ih =>
    intro s hs hne
    obtain ⟨e, t⟩ := p
    have h1 := step_no_silence_timeout s t e hs (hne (e, t) (List.mem_cons_self _ _))
    have h2 := ih (step s t e).1 h1.1 (fun q hq => hne q (List.mem_cons_of_mem _ hq))
    simp only [run, List.mem_append]
    exact fun hc => hc.elim (fun hx => h1.2 hx) (fun hx => h2 hx)

/-- **C9 (amended)**: in a session that never sees speech the silence
timeout never fires (its callback is guarded by `hasReceivedSpeech`), and
when the max-duration timer expires while still listening the session is
stopped (`recognition.stop()` is called, both timers cleared) and a
`timeout` event with reason `"max_recording_time"` is emitted. -/
theorem silence_vs_max_timeout :
    (∀ (s : RecState) (evs : List (RecEvent × Nat)),
        s.hasReceivedSpeech = false →
        (∀ p ∈ evs, p.1 ≠ RecEvent.onspeechstart) →
        SessionAction.emit "timeout" (some "silence") ∉ (run s evs).2) ∧
    (∀ (s : RecState) (now : Nat),
        s.isListening = true → s.maxRecordingTimer = true →
        step s now RecEvent.maxTimerFire =
          ({ s with maxRecordingTimer := false, silenceTimer := false },
           [SessionAction.recognitionStop,
            SessionAction.emit "timeout" (some "max_recording_time")])) := by
  refine ⟨fun s evs hs hne => run_no_silence_timeout evs s hs hne, fun s now h1 h2 => ?_⟩
  simp [step, stopMethod, clearTimers, h1, h2]

/-- Witness for C9's amended theorem: a listening session that arms and
expires its silence timer without any speech emits no silence timeout, and
the max-duration expiry produces a stop plus `"max_recording_time"`. -/
theorem silence_vs_max_timeout_witness :
    SessionAction.emit "timeout" (some "silence") ∉
      (run listeningState
        [(RecEvent.onspeechend, 3), (RecEvent.silenceTimerFire, 7),
         (RecEvent.maxTimerFire, 15)]).2 ∧
    step listeningState 0 RecEvent.maxTimerFire =
      ({ listeningState with maxRecordingTimer := false, silenceTimer := false },
       [SessionAction.recognitionStop,
        SessionAction.emit "timeout" (some "max_recording_time")]) :=
  ⟨silence_vs_max_timeout.1 listeningState _ rfl (by decide),
   silence_vs_max_timeout.2 listeningState 0 rfl rfl⟩

/-- **C9 counterexample**: the reason string emitted at max-duration expiry
is `"max_recording_time"`, not the claimed `"max_duration"`. -/
theorem max_timeout_reason :
    SessionAction.emit "timeout" (some "max_duration") ∉
      (step listeningState 0 RecEvent.maxTimerFire).2 ∧
    SessionAction.emit "timeout" (some "max_recording_time") ∈
      (step listeningState 0 RecEvent.maxTimerFire).2 := by
  exact ⟨by decide, by decide⟩

/-! ## Word-aligner lemmas (towards C2, C10) -/

/-- Shifting the running index of `indexOfFrom` shifts its result. -/
theorem indexOfFrom_shift (w : String) (l : List String) (i : Nat) :
    indexOfFrom w l i = (indexOfFrom w l 0).map (· + i) := by
  induction l generalizing i with
  | nil => rfl
  | cons x xs ih =>
    by_cases hx : x = w
    · simp [indexOfFrom, hx]
    · simp only [indexOfFrom, if_neg hx]
      rw [ih (i + 1), ih 1]
      rcases indexOfFrom w xs 0 with _ | k
      · rfl
      · simp only [Option.map_some']
        congr 1
        omega

/-- `indexOfFrom` from 0 finds exactly the first occurrence: the word is at
the returned index and nowhere earlier. -/
theorem indexOfFrom_eq_some_iff (w : String) (l : List String) (k : Nat) :
    indexOfFrom w l 0 = some k ↔ l.get? k = some w ∧ w ∉ l.take k := by
  induction l generalizing k with
  | nil => simp [indexOfFrom]
  | cons x xs ih =>
    by_cases hx : x = w
    · subst hx
      simp only [indexOfFrom, if_pos rfl]
      cases k with
      | zero => simp
      | succ k => simp
    · simp only [indexOfFrom, if_neg hx]
      rw [indexOfFrom_shift w xs 1]
      cases k with
      | zero => simp [Option.map_eq_some', hx]
      | succ k =>
        simp only [Option.map_eq_some', List.get?_cons_succ, List.take_succ_cons,
          List.mem_cons]
        constructor
        · rintro ⟨a, ha, hplus⟩
          have hak : a = k := by omega
          rw [hak] at ha
          have h2 := (ih k).mp ha
          exact ⟨h2.1, fun hmem => hmem.elim (fun h => hx h.symm) h2.2⟩
        · rintro ⟨h1, h2⟩
          exact ⟨k, (ih k).mpr ⟨h1, fun hm => h2 (Or.inr hm)⟩, rfl⟩

/-- `indexOfFrom` misses exactly when the word does not occur. -/
theorem indexOfFrom_eq_none_iff (w : String) (l : List String) :
    indexOfFrom w l 0 = none ↔ w ∉ l := by
  induction l with
  | nil => simp [indexOfFrom]
  | cons x xs ih =>
    by_cases hx : x = w
    · simp [indexOfFrom, hx]
    · simp only [indexOfFrom, if_neg hx]
      rw [indexOfFrom_shift w xs 1]
      simp only [Option.map_eq_none', List.mem_cons]
      rw [ih]
      constructor
      · exact fun h hc => hc.elim (fun h1 => hx h1.symm) h
      · exact fun h hc => h (Or.inr hc)

/-- Membership description of the `matches` list built by `matchStep`. -/
theorem matchStep_matches_mem (ws actual : List String) (i0 : Nat) (m : WordMatch) :
    m ∈ (matchStep ws actual i0).1 ↔
      ∃ j, ws.get? j = some m.word ∧ m.expectedIndex = i0 + j ∧
        indexOfFrom m.word actual 0 = some m.actualIndex := by
  induction ws generalizing i0 with
  | nil => simp [matchStep]
  | cons w ws ih =>
    rcases h : indexOfFrom w actual 0 with _ | k
    · simp only [matchStep, h]
      rw [ih]
      constructor
      · rintro ⟨j, hj, he, hio⟩
        exact ⟨j + 1, by simpa using hj, by omega, hio⟩
      · rintro ⟨j, hj, he, hio⟩
        cases j with
        | zero =>
          exfalso
          have hw : w = m.word := by simpa using hj
          rw [hw] at h
          rw [h] at hio
          exact Option.noConfusion hio
        | succ j =>
          exact ⟨j, by simpa using hj, by omega, hio⟩
    · simp only [matchStep, h, List.mem_cons]
      rw [ih]
      constructor
      · rintro (rfl | ⟨j, hj, he, hio⟩)
        · exact ⟨0, by simp, by simp, by simpa using h⟩
        · exact ⟨j + 1, by simpa using hj, by omega, hio⟩
      · rintro ⟨j, hj, he, hio⟩
        cases j with
        | zero =>
          left
          have hw : w = m.word := by simpa using hj
          subst hw
          rw [h] at hio
          have hk : k = m.actualIndex := by simpa using hio
          cases m
          simp_all
        | succ j =>
          right
          exact ⟨j, by simpa using hj, by omega, hio⟩

/-- Membership description of the `missing` list built by `matchStep`. -/
theorem matchStep_missing_mem (ws actual : List String) (i0 : Nat) (e : IndexedWord) :
    e ∈ (matchStep ws actual i0).2.1 ↔
      ∃ j, ws.get? j = some e.word ∧ e.index = i0 + j ∧
        indexOfFrom e.word actual 0 = none := by
  induction ws generalizing i0 with
  | nil => simp [matchStep]
  | cons w ws ih =>
    rcases h : indexOfFrom w actual 0 with _ | k
    · simp only [matchStep, h, List.mem_cons]
      rw [ih]
      constructor
      · rintro (rfl | ⟨j, hj, he, hio⟩)
        · exact ⟨0, by simp, by simp, by simpa using h⟩
        · exact ⟨j + 1, by simpa using hj, by omega, hio⟩
      · rintro ⟨j, hj, he, hio⟩
        cases j with
        | zero =>
          left
          have hw : w = e.word := by simpa using hj
          subst hw
          cases e
          simp_all
        | succ j =>
          right
          exact ⟨j, by simpa using hj, by omega, hio⟩
    · simp only [matchStep, h]
      rw [ih]
      constructor
      · rintro ⟨j, hj, he, hio⟩
        exact ⟨j + 1, by simpa using hj, by omega, hio⟩
      · rintro ⟨j, hj, he, hio⟩
        cases j with
        | zero =>
          exfalso
          have hw : w = e.word := by simpa using hj
          rw [hw] at h
          rw [h] at hio
          exact Option.noConfusion hio
        | succ j =>
          exact ⟨j, by simpa using hj, by omega, hio⟩

/-- Membership description of the `extra` list built by `extraStep`. -/
theorem extraStep_mem (expected ws : List String) (i0 : Nat) (e : IndexedWord) :
    e ∈ extraStep expected ws i0 ↔
      ∃ j, ws.get? j = some e.word ∧ e.index = i0 + j ∧ e.word ∉ expected := by
  induction ws generalizing i0 with
  | nil => simp [extraStep]
  | cons a rest ih =>
    by_cases ha : expected.contains a
    · have ham : a ∈ expected := by
        simpa using ha
      simp only [extraStep, if_pos ha]
      rw [ih]
      constructor
      · rintro ⟨j, hj, he, hm⟩
        exact ⟨j + 1, by simpa using hj, by omega, hm⟩
      · rintro ⟨j, hj, he, hm⟩
        cases j with
        | zero =>
          exfalso
          have hw : a = e.word := by simpa using hj
          exact hm (hw ▸ ham)
        | succ j =>
          exact ⟨j, by simpa using hj, by omega, hm⟩
    · have ham : a ∉ expected := by
        simpa using ha
      simp only [extraStep, if_neg ha, List.mem_cons]
      rw [ih]
      constructor
      · rintro (rfl | ⟨j, hj, he, hm⟩)
        · exact ⟨0, by simp, by simp, ham⟩
        · exact ⟨j + 1, by simpa using hj, by omega, hm⟩
      · rintro ⟨j, hj, he, hm⟩
        cases j with
        | zero =>
          left
          have hw : a = e.word := by simpa using hj
          cases e
          simp_all
        | succ j =>
          right
          exact ⟨j, by simpa using hj, by omega, hm⟩

/-- The running match counter equals the length of the `matches` list. -/
theorem matchStep_count_eq_length (ws actual : List String) (i0 : Nat) :
    (matchStep ws actual i0).2.2 = (matchStep ws actual i0).1.length := by
  induction ws generalizing i0 with
  | nil => rfl
  | cons w ws ih =>
    rcases h : indexOfFrom w actual 0 with _ | k <;>
      simp [matchStep, h, ih]

/-- Matches and missing entries together cover all expected words. -/
theorem matchStep_total_length (ws actual : List String) (i0 : Nat) :
    (matchStep ws actual i0).1.length + (matchStep ws actual i0).2.1.length =
      ws.length := by
  induction ws generalizing i0 with
  | nil => rfl
  | cons w ws ih =>
    have hr := ih (i0 + 1)
    rcases h : indexOfFrom w actual 0 with _ | k <;>
      simp [matchStep, h] <;> omega

/-- The `matches` list is strictly ordered by expected index. -/
theorem matchStep_matches_pairwise (ws actual : List String) (i0 : Nat) :
    (matchStep ws actual i0).1.Pairwise
      (fun m1 m2 => m1.expectedIndex < m2.expectedIndex) := by
  induction ws generalizing i0 with
  | nil => simp [matchStep]
  | cons w ws ih =>
    rcases h : indexOfFrom w actual 0 with _ | k
    · simpa [matchStep, h] using ih (i0 + 1)
    · simp only [matchStep, h, List.pairwise_cons]
      refine ⟨fun m hm => ?_, ih (i0 + 1)⟩
      obtain ⟨j, _, he, _⟩ := (matchStep_matches_mem ws actual (i0 + 1) m).mp hm
      omega

/-- The `missing` list is strictly ordered by index. -/
theorem matchStep_missing_pairwise (ws actual : List String) (i0 : Nat) :
    (matchStep ws actual i0).2.1.Pairwise
      (fun e1 e2 => e1.index < e2.index) := by
  induction ws generalizing i0 with
  | nil => simp [matchStep]
  | cons w ws ih =>
    rcases h : indexOfFrom w actual 0 with _ | k
    · simp only [matchStep, h, List.pairwise_cons]
      refine ⟨fun e he => ?_, ih (i0 + 1)⟩
      obtain ⟨j, _, hidx, _⟩ := (matchStep_missing_mem ws actual (i0 + 1) e).mp he
      omega
    · simpa [matchStep, h] using ih (i0 + 1)

/-- Each index in `i0 … i0 + len - 1` appears exactly once across the
expected-index projections of `matches` and `missing`. -/
theorem matchStep_count_index (ws actual : List String) (i0 i : Nat) :
    (((matchStep ws actual i0).1.map WordMatch.expectedIndex) ++
      ((matchStep ws actual i0).2.1.map IndexedWord.index)).count i =
      if i0 ≤ i ∧ i < i0 + ws.length then 1 else 0 := by
  induction ws generalizing i0 with
  | nil =>
    simp only [matchStep, List.map_nil, List.nil_append, List.count_nil,
      List.length_nil]
    split_ifs with hc
    · omega
    · rfl
  | cons w ws ih =>
    rcases h : indexOfFrom w actual 0 with _ | k
    · simp only [matchStep, h, List.map_cons, List.count_append, List.count_cons,
        List.length_cons]
      have hr := ih (i0 + 1)
      simp only [List.count_append] at hr
      rw [← Nat.add_assoc, hr]
      simp only [beq_iff_eq]
      split_ifs <;> omega
    · simp only [matchStep, h, List.map_cons, List.count_cons, List.count_append,
        List.length_cons]
      have hr := ih (i0 + 1)
      simp only [List.count_append] at hr
      rw [Nat.add_right_comm, hr]
      simp only [beq_iff_eq]
      split_ifs <;> omega

/-- **C2**: `compareWordArrays` records, in expected order, each expected
word as a match carrying its expected index and the first index where it
occurs in `actual` (when it occurs at all), and otherwise as missing with
its expected index; independently each actual word occurring nowhere in
`expected` is extra with its actual index; the word-match ratio is
`matchCount / len(expected)` for non-empty `expected` and `0` otherwise. -/
theorem compareWordArrays_spec (expected actual : List String) :
    ((compareWordArrays expected actual).«matches».Pairwise
      (fun m1 m2 => m1.expectedIndex < m2.expectedIndex)) ∧
    (∀ m : WordMatch,
      m ∈ (compareWordArrays expected actual).«matches» ↔
        expected.get? m.expectedIndex = some m.word ∧
        actual.get? m.actualIndex = some m.word ∧
        m.word ∉ actual.take m.actualIndex) ∧
    ((compareWordArrays expected actual).missing.Pairwise
      (fun e1 e2 => e1.index < e2.index)) ∧
    (∀ e : IndexedWord,
      e ∈ (compareWordArrays expected actual).missing ↔
        expected.get? e.index = some e.word ∧ e.word ∉ actual) ∧
    (∀ e : IndexedWord,
      e ∈ (compareWordArrays expected actual).extra ↔
        actual.get? e.index = some e.word ∧ e.word ∉ expected) ∧
    (compareWordArrays expected actual).score =
      (if 0 < expected.length
       then ((compareWordArrays expected actual).matchedCount : ℚ) /
         (expected.length : ℚ)
       else 0) := by
  refine ⟨matchStep_matches_pairwise expected actual 0, fun m => ?_,
    matchStep_missing_pairwise expected actual 0, fun e => ?_, fun e => ?_, rfl⟩
  · rw [show (compareWordArrays expected actual).«matches» =
        (matchStep expected actual 0).1 from rfl, matchStep_matches_mem]
    constructor
    · rintro ⟨j, hj, he, hio⟩
      have h2 := (indexOfFrom_eq_some_iff m.word actual m.actualIndex).mp hio
      exact ⟨by rw [he]; simpa using hj, h2.1, h2.2⟩
    · rintro ⟨h1, h2, h3⟩
      exact ⟨m.expectedIndex, h1, by omega,
        (indexOfFrom_eq_some_iff _ _ _).mpr ⟨h2, h3⟩⟩
  · rw [show (compareWordArrays expected actual).missing =
        (matchStep expected actual 0).2.1 from rfl, matchStep_missing_mem]
    constructor
    · rintro ⟨j, hj, he, hio⟩
      exact ⟨by rw [he]; simpa using hj, (indexOfFrom_eq_none_iff _ _).mp hio⟩
    · rintro ⟨h1, h2⟩
      exact ⟨e.index, h1, by omega, (indexOfFrom_eq_none_iff _ _).mpr h2⟩
  · rw [show (compareWordArrays expected actual).extra =
        extraStep expected actual 0 from rfl, extraStep_mem]
    constructor
    · rintro ⟨j, hj, he, hm⟩
      exact ⟨by rw [he]; simpa using hj, hm⟩
    · rintro ⟨h1, h2⟩
      exact ⟨e.index, h1, by omega, h2⟩

/-- Witness for C2 on a concrete pair with a match, a missing and an extra
word. -/
theorem compareWordArrays_spec_witness :
    (⟨"b", 1, 0⟩ : WordMatch) ∈ (compareWordArrays ["a", "b"] ["b", "c"]).«matches» ∧
    (⟨"a", 0⟩ : IndexedWord) ∈ (compareWordArrays ["a", "b"] ["b", "c"]).missing ∧
    (⟨"c", 1⟩ : IndexedWord) ∈ (compareWordArrays ["a", "b"] ["b", "c"]).extra :=
  ⟨((compareWordArrays_spec ["a", "b"] ["b", "c"]).2.1 ⟨"b", 1, 0⟩).mpr (by decide),
   ((compareWordArrays_spec ["a", "b"] ["b", "c"]).2.2.2.1 ⟨"a", 0⟩).mpr (by decide),
   ((compareWordArrays_spec ["a", "b"] ["b", "c"]).2.2.2.2.1 ⟨"c", 1⟩).mpr (by decide)⟩

/-- **C10**: the alignment partitions the expected sequence — matches and
missing entries together number `len(expected)`, every expected index
occurs in exactly one of them, `matchedCount` equals the number of
matches, and each match's `actualIndex` is a valid index of `actual`
holding that word. -/
theorem compareWordArrays_partition (expected actual : List String) :
    ((compareWordArrays expected actual).«matches».length +
      (compareWordArrays expected actual).missing.length = expected.length) ∧
    (∀ i, i < expected.length →
      (((compareWordArrays expected actual).«matches».map WordMatch.expectedIndex) ++
        ((compareWordArrays expected actual).missing.map IndexedWord.index)).count i
        = 1) ∧
    ((compareWordArrays expected actual).matchedCount =
      (compareWordArrays expected actual).«matches».length) ∧
    (∀ m ∈ (compareWordArrays expected actual).«matches»,
      m.actualIndex < actual.length ∧ actual.get? m.actualIndex = some m.word) := by
  refine ⟨matchStep_total_length expected actual 0, fun i hi => ?_,
    matchStep_count_eq_length expected actual 0, fun m hm => ?_⟩
  · have hc := matchStep_count_index expected actual 0 i
    rw [show (compareWordArrays expected actual).«matches» =
        (matchStep expected actual 0).1 from rfl,
      show (compareWordArrays expected actual).missing =
        (matchStep expected actual 0).2.1 from rfl, hc,
      if_pos ⟨Nat.zero_le i, by omega⟩]
  · obtain ⟨j, hj, he, hio⟩ := (matchStep_matches_mem expected actual 0 m).mp hm
    have h2 := (indexOfFrom_eq_some_iff m.word actual m.actualIndex).mp hio
    have hlt : m.actualIndex < actual.length := by
      obtain ⟨h, _⟩ := List.get?_eq_some.mp h2.1
      exact h
    exact ⟨hlt, h2.1⟩

/-- Witness for C10 on concrete word lists. -/
theorem compareWordArrays_partition_witness :
    ((((compareWordArrays ["a", "b", "c"] ["c"]).«matches».map
        WordMatch.expectedIndex) ++
      ((compareWordArrays ["a", "b", "c"] ["c"]).missing.map
        IndexedWord.index)).count 1 = 1) ∧
    ((⟨"c", 2, 0⟩ : WordMatch).actualIndex < (["c"] : List String).length ∧
      (["c"] : List String).get? (⟨"c", 2, 0⟩ : WordMatch).actualIndex =
        some (⟨"c", 2, 0⟩ : WordMatch).word) :=
  ⟨(compareWordArrays_partition ["a", "b", "c"] ["c"]).2.1 1 (by decide),
   (compareWordArrays_partition ["a", "b", "c"] ["c"]).2.2.2 ⟨"c", 2, 0⟩ (by decide)⟩

/-! ## Levenshtein lemmas (towards C4, C5) -/

theorem lev_nil_left (ys : List Char) : lev [] ys = ys.length := by
  simp [lev]

theorem lev_nil_right (xs : List Char) : lev xs [] = xs.length := by
  cases xs <;> simp [lev]

theorem lev_cons_cons (x y : Char) (xs ys : List Char) :
    lev (x :: xs) (y :: ys) =
      if x = y then lev xs ys
      else 1 + min (lev xs ys) (min (lev (x :: xs) ys) (lev xs (y :: ys))) := by
  rw [lev]

/-- Prepending one character to either side changes the distance by at most
one (fuel-indexed simultaneous induction). -/
theorem lev_stretch (n : Nat) : ∀ xs ys : List Char, xs.length + ys.length ≤ n →
    (∀ c : Char, lev (c :: xs) ys ≤ 1 + lev xs ys) ∧
    (∀ d : Char, lev xs ys ≤ 1 + lev xs (d :: ys)) := by
  induction n with
  | zero =>
    intro xs ys h
    have hx : xs = [] := by cases xs <;> simp_all
    have hy : ys = [] := by cases ys <;> simp_all
    subst hx; subst hy
    exact ⟨fun c => by simp [lev_nil_right, lev_nil_left],
      fun d => by simp [lev_nil_left]⟩
  | succ n ih =>
    intro xs ys h
    constructor
    · intro c
      cases ys with
      | nil => simp [lev_nil_right]; omega
      | cons y ys =>
        rw [lev_cons_cons]
        by_cases hcy : c = y
        · rw [if_pos hcy]
          have := (ih xs ys (by simp at h ⊢; omega)).2 y
          exact this
        · rw [if_neg hcy]
          omega
    · intro d
      cases xs with
      | nil => simp [lev_nil_left]; omega
      | cons x xs =>
        rw [lev_cons_cons x d]
        by_cases hxd : x = d
        · rw [if_pos hxd]
          exact (ih xs ys (by simp at h ⊢; omega)).1 x
        · rw [if_neg hxd]
          have h1 : lev (x :: xs) ys ≤ 1 + lev xs ys :=
            (ih xs ys (by simp at h ⊢; omega)).1 x
          have h2 : lev xs ys ≤ 1 + lev xs (d :: ys) :=
            (ih xs ys (by simp at h ⊢; omega)).2 d
          omega

theorem lev_cons_left_le (c : Char) (xs ys : List Char) :
    lev (c :: xs) ys ≤ 1 + lev xs ys :=
  (lev_stretch (xs.length + ys.length) xs ys le_rfl).1 c

theorem lev_comm_aux (n : Nat) : ∀ xs ys : List Char, xs.length + ys.length ≤ n →
    lev xs ys = lev ys xs := by
  induction n with
  | zero =>
    intro xs ys h
    have hx : xs = [] := by cases xs <;> simp_all
    have hy : ys = [] := by cases ys <;> simp_all
    subst hx; subst hy; rfl
  | succ n ih =>
    intro xs ys h
    cases xs with
    | nil => rw [lev_nil_left, lev_nil_right]
    | cons x xs =>
      cases ys with
      | nil => rw [lev_nil_left, lev_nil_right]
      | cons y ys =>
        rw [lev_cons_cons, lev_cons_cons]
        have e1 : lev xs ys = lev ys xs := ih xs ys (by simp at h ⊢; omega)
        have e2 : lev (x :: xs) ys = lev ys (x :: xs) :=
          ih (x :: xs) ys (by simp at h ⊢; omega)
        have e3 : lev xs (y :: ys) = lev (y :: ys) xs :=
          ih xs (y :: ys) (by simp at h ⊢; omega)
        by_cases hxy : x = y
        · rw [if_pos hxy, if_pos hxy.symm, e1]
        · rw [if_neg hxy, if_neg (fun hyx => hxy hyx.symm), e1, e2, e3]
          omega

theorem lev_comm (xs ys : List Char) : lev xs ys = lev ys xs :=
  lev_comm_aux (xs.length + ys.length) xs ys le_rfl

theorem lev_cons_right_le (d : Char) (xs ys : List Char) :
    lev xs (d :: ys) ≤ 1 + lev xs ys := by
  rw [lev_comm xs (d :: ys), lev_comm xs ys]
  exact lev_cons_left_le d ys xs

/-- The distance never exceeds the longer length. -/
theorem lev_le_max_aux (n : Nat) : ∀ xs ys : List Char, xs.length + ys.length ≤ n →
    lev xs ys ≤ max xs.length ys.length := by
  induction n with
  | zero =>
    intro xs ys h
    have hx : xs = [] := by cases xs <;> simp_all
    have hy : ys = [] := by cases ys <;> simp_all
    subst hx; subst hy; simp [lev]
  | succ n ih =>
    intro xs ys h
    cases xs with
    | nil => simp [lev_nil_left]
    | cons x xs =>
      cases ys with
      | nil => simp [lev_nil_right]
      | cons y ys =>
        rw [lev_cons_cons]
        have h1 := ih xs ys (by simp at h ⊢; omega)
        by_cases hxy : x = y
        · rw [if_pos hxy]
          simp only [List.length_cons]
          omega
        · rw [if_neg hxy]
          simp only [List.length_cons]
          omega

theorem lev_le_max (xs ys : List Char) : lev xs ys ≤ max xs.length ys.length :=
  lev_le_max_aux (xs.length + ys.length) xs ys le_rfl

/-- Pure insertion script from the empty word. -/
theorem editRel_nil_left (ys : List Char) : EditRel ys.length [] ys := by
  induction ys with
  | nil => exact EditRel.nil
  | cons y ys ih => simpa using EditRel.ins y ih

/-- Pure deletion script to the empty word. -/
theorem editRel_nil_right (xs : List Char) : EditRel xs.length xs [] := by
  induction xs with
  | nil => exact EditRel.nil
  | cons x xs ih => simpa using EditRel.del x ih

/-- An optimal edit script exists: `lev` edits suffice. -/
theorem editRel_lev_aux (n : Nat) : ∀ xs ys : List Char, xs.length + ys.length ≤ n →
    EditRel (lev xs ys) xs ys := by
  induction n with
  | zero =>
    intro xs ys h
    have hx : xs = [] := by cases xs <;> simp_all
    have hy : ys = [] := by cases ys <;> simp_all
    subst hx; subst hy
    simpa [lev] using EditRel.nil
  | succ n ih =>
    intro xs ys h
    cases xs with
    | nil =>
      rw [lev_nil_left]
      exact editRel_nil_left ys
    | cons x xs =>
      cases ys with
      | nil =>
        rw [lev_nil_right]
        exact editRel_nil_right (x :: xs)
      | cons y ys =>
        rw [lev_cons_cons]
        have e1 : EditRel (lev xs ys) xs ys := ih xs ys (by simp at h ⊢; omega)
        have e2 : EditRel (lev (x :: xs) ys) (x :: xs) ys :=
          ih (x :: xs) ys (by simp at h ⊢; omega)
        have e3 : EditRel (lev xs (y :: ys)) xs (y :: ys) :=
          ih xs (y :: ys) (by simp at h ⊢; omega)
        by_cases hxy : x = y
        · rw [if_pos hxy]
          subst hxy
          exact EditRel.keep x e1
        · rw [if_neg hxy]
          have key : min (lev xs ys) (min (lev (x :: xs) ys) (lev xs (y :: ys)))
              = lev xs ys ∨
              min (lev xs ys) (min (lev (x :: xs) ys) (lev xs (y :: ys)))
              = lev (x :: xs) ys ∨
              min (lev xs ys) (min (lev (x :: xs) ys) (lev xs (y :: ys)))
              = lev xs (y :: ys) := by omega
          rcases key with hk | hk | hk <;> rw [hk, Nat.add_comm]
          · exact EditRel.subst x y hxy e1
          · exact EditRel.ins y e2
          · exact EditRel.del x e3

theorem editRel_lev (xs ys : List Char) : EditRel (lev xs ys) xs ys :=
  editRel_lev_aux (xs.length + ys.length) xs ys le_rfl

/-- No edit script does better than `lev`. -/
theorem lev_le_of_editRel {n : Nat} {xs ys : List Char} (h : EditRel n xs ys) :
    lev xs ys ≤ n := by
  induction h with
  | nil => simp [lev]
  | keep c _ ih =>
    rw [lev_cons_cons, if_pos rfl]
    exact ih
  | subst c d hcd _ ih =>
    rw [lev_cons_cons, if_neg hcd]
    omega
  | ins d _ ih =>
    rename_i xs' ys' _
    have := lev_cons_right_le d xs' ys'
    omega
  | del c _ ih =>
    rename_i xs' ys' _
    have := lev_cons_left_le c xs' ys'
    omega

/-- Edit scripts extend under a shared trailing character. -/
theorem editRel_snoc_keep (c : Char) {n : Nat} {xs ys : List Char}
    (h : EditRel n xs ys) : EditRel n (xs ++ [c]) (ys ++ [c]) := by
  induction h with
  | nil => simpa using EditRel.keep c EditRel.nil
  | keep d _ ih => simpa using EditRel.keep d ih
  | subst a b hab _ ih => simpa using EditRel.subst a b hab ih
  | ins d _ ih => simpa using EditRel.ins d ih
  | del a _ ih => simpa using EditRel.del a ih

/-- Edit scripts extend under a trailing substitution. -/
theorem editRel_snoc_subst {c d : Char} (hne : c ≠ d) {n : Nat}
    {xs ys : List Char} (h : EditRel n xs ys) :
    EditRel (n + 1) (xs ++ [c]) (ys ++ [d]) := by
  induction h with
  | nil => simpa using EditRel.subst c d hne EditRel.nil
  | keep e _ ih => simpa using EditRel.keep e ih
  | subst a b hab _ ih => simpa using EditRel.subst a b hab ih
  | ins e _ ih => simpa using EditRel.ins e ih
  | del a _ ih => simpa using EditRel.del a ih

/-- Edit scripts extend under a trailing insertion. -/
theorem editRel_snoc_ins (d : Char) {n : Nat} {xs ys : List Char}
    (h : EditRel n xs ys) : EditRel (n + 1) xs (ys ++ [d]) := by
  induction h with
  | nil => simpa using EditRel.ins d EditRel.nil
  | keep e _ ih => simpa using EditRel.keep e ih
  | subst a b hab _ ih => simpa using EditRel.subst a b hab ih
  | ins e _ ih => simpa using EditRel.ins e ih
  | del a _ ih => simpa using EditRel.del a ih

/-- Edit scripts extend under a trailing deletion. -/
theorem editRel_snoc_del (c : Char) {n : Nat} {xs ys : List Char}
    (h : EditRel n xs ys) : EditRel (n + 1) (xs ++ [c]) ys := by
  induction h with
  | nil => simpa using EditRel.del c EditRel.nil
  | keep e _ ih => simpa using EditRel.keep e ih
  | subst a b hab _ ih => simpa using EditRel.subst a b hab ih
  | ins e _ ih => simpa using EditRel.ins e ih
  | del a _ ih => simpa using EditRel.del a ih

/-- Edit scripts are preserved by reversal of both words. -/
theorem editRel_reverse {n : Nat} {xs ys : List Char} (h : EditRel n xs ys) :
    EditRel n xs.reverse ys.reverse := by
  induction h with
  | nil => exact EditRel.nil
  | keep c _ ih => simpa [List.reverse_cons] using editRel_snoc_keep c ih
  | subst a b hab _ ih => simpa [List.reverse_cons] using editRel_snoc_subst hab ih
  | ins d _ ih => simpa [List.reverse_cons] using editRel_snoc_ins d ih
  | del c _ ih => simpa [List.reverse_cons] using editRel_snoc_del c ih

/-- The distance is reversal-invariant. -/
theorem lev_reverse (xs ys : List Char) : lev xs.reverse ys.reverse = lev xs ys := by
  apply Nat.le_antisymm
  · exact lev_le_of_editRel (editRel_reverse (editRel_lev xs ys))
  · have h := lev_le_of_editRel (editRel_reverse (editRel_lev xs.reverse ys.reverse))
    simpa using h

/-! ## The matrix dynamic program computes `lev` -/

/-- Tail of a matrix row in terms of `lev`: entry `j` of row `i` is the
distance between the reversed length-`j` prefix of `str1` (tracked here as
the accumulator `pre`) and the reversed length-`i` prefix of `str2`
(tracked as `t`). -/
def prefRowTail (t : List Char) : List Char → List Char → List Nat
  | _, [] => []
  | pre, c :: cs => lev (c :: pre) t :: prefRowTail t (c :: pre) cs

/-- `rowAux` turns the `lev` row for `t` into the `lev` row for `c2 :: t`. -/
theorem rowAux_spec (c2 : Char) (t : List Char) : ∀ cs pre : List Char,
    rowAux c2 cs (lev pre t :: prefRowTail t pre cs) (lev pre (c2 :: t)) =
      prefRowTail (c2 :: t) pre cs := by
  intro cs
  induction cs with
  | nil => intro pre; rfl
  | cons c1 cs ih =>
    intro pre
    rw [show prefRowTail t pre (c1 :: cs) =
        lev (c1 :: pre) t :: prefRowTail t (c1 :: pre) cs from rfl]
    rw [rowAux]
    have hcur : (if c2 = c1 then lev pre t
        else min (lev pre t + 1)
          (min (lev pre (c2 :: t) + 1) (lev (c1 :: pre) t + 1))) =
        lev (c1 :: pre) (c2 :: t) := by
      rw [lev_cons_cons]
      by_cases hc : c2 = c1
      · rw [if_pos hc, if_pos hc.symm]
      · rw [if_neg hc, if_neg (fun h => hc h.symm)]
        omega
    rw [hcur, ih (c1 :: pre)]
    rfl

/-- Invariant of the outer loop of the dynamic program. -/
theorem levGo_spec (s1 : List Char) : ∀ (rest t : List Char),
    levGo s1 rest (lev [] t :: prefRowTail t [] s1) (t.length + 1) =
      lev [] (rest.reverse ++ t) :: prefRowTail (rest.reverse ++ t) [] s1 := by
  intro rest
  induction rest with
  | nil => intro t; simp [levGo]
  | cons c2 rest ih =>
    intro t
    rw [levGo]
    have h2 : lev [] (c2 :: t) = t.length + 1 := by rw [lev_nil_left]; rfl
    have harg : (t.length + 1)
          :: rowAux c2 s1 (lev [] t :: prefRowTail t [] s1) (t.length + 1) =
        lev [] (c2 :: t) :: prefRowTail (c2 :: t) [] s1 := by
      rw [← h2, rowAux_spec]
    rw [harg, show t.length + 1 + 1 = (c2 :: t).length + 1 from by simp,
      ih (c2 :: t)]
    simp

/-- With the empty `str2`-prefix the row is `[0, 1, …, len]`, exactly the
`matrix[0][j] = j` initialisation. -/
theorem prefRowTail_nil (cs : List Char) : ∀ pre : List Char,
    prefRowTail [] pre cs = List.range' (pre.length + 1) cs.length 1 := by
  induction cs with
  | nil => intro pre; rfl
  | cons c cs ih =>
    intro pre
    rw [show prefRowTail [] pre (c :: cs) =
        lev (c :: pre) [] :: prefRowTail [] (c :: pre) cs from rfl]
    rw [lev_nil_right, ih (c :: pre),
      show (c :: cs).length = cs.length + 1 from rfl, List.range'_succ]
    rfl

/-- Reading the final entry of a row. -/
theorem prefRow_getD (t : List Char) : ∀ cs pre : List Char,
    (lev pre t :: prefRowTail t pre cs).getD cs.length 0 =
      lev (cs.reverse ++ pre) t := by
  intro cs
  induction cs with
  | nil => intro pre; simp
  | cons c cs ih =>
    intro pre
    rw [show prefRowTail t pre (c :: cs) =
        lev (c :: pre) t :: prefRowTail t (c :: pre) cs from rfl]
    rw [show (c :: cs).length = cs.length + 1 from rfl, List.getD_cons_succ,
      ih (c :: pre)]
    simp

/-- The source's matrix dynamic program agrees with the textbook
recurrence. -/
theorem levenshteinDistance_eq_lev (str1 str2 : String) :
    levenshteinDistance str1 str2 = lev str1.data str2.data := by
  unfold levenshteinDistance
  have hinit : List.range (str1.data.length + 1) =
      lev [] [] :: prefRowTail [] [] str1.data := by
    rw [prefRowTail_nil str1.data [], show lev [] [] = 0 from by simp [lev],
      List.range_eq_range']
    rfl
  rw [hinit, show (1 : Nat) = ([] : List Char).length + 1 from rfl,
    levGo_spec str1.data str2.data [], List.append_nil, prefRow_getD,
    List.append_nil, lev_reverse]

/-- Nonempty strings are exactly those of positive length. -/
theorem string_length_eq_zero_iff (s : String) : s.length = 0 ↔ s = "" := by
  cases s with
  | mk l =>
    constructor
    · intro h
      have hl : l = [] := List.length_eq_zero.mp h
      simp [hl]
    · intro h
      have hl : l = [] := congrArg String.data h
      simp [String.length, hl]

/-- **C4**: `levenshteinDistance` computes the classic minimal number of
single-character insert/delete/substitute operations (unit cost each)
transforming `a` into `b` — an optimal edit script of that cost exists and
no script is shorter — and `calculateLevenshteinSimilarity` equals
`1 - distance / max(len a, len b)`, with value `1` when both strings are
empty. -/
theorem levenshteinDistance_correct (a b : String) :
    EditRel (levenshteinDistance a b) a.data b.data ∧
    (∀ n, EditRel n a.data b.data → levenshteinDistance a b ≤ n) ∧
    calculateLevenshteinSimilarity a b =
      (if a = "" ∧ b = "" then (1 : ℚ)
       else 1 - (levenshteinDistance a b : ℚ) / (max a.length b.length : ℚ)) := by
  refine ⟨?_, ?_, ?_⟩
  · rw [levenshteinDistance_eq_lev]
    exact editRel_lev a.data b.data
  · intro n h
    rw [levenshteinDistance_eq_lev]
    exact lev_le_of_editRel h
  · unfold calculateLevenshteinSimilarity
    have hiff : max a.length b.length = 0 ↔ (a = "" ∧ b = "") := by
      rw [Nat.max_eq_zero_iff, string_length_eq_zero_iff, string_length_eq_zero_iff]
    by_cases h : max a.length b.length = 0
    · rw [if_pos h, if_pos (hiff.mp h)]
    · rw [if_neg h, if_neg (fun hc => h (hiff.mpr hc)), Nat.cast_max]

/-- Witness for C4: a concrete optimal script and the optimality bound at
`("ab", "b")`. -/
theorem levenshteinDistance_correct_witness :
    EditRel (levenshteinDistance "ab" "b") "ab".data "b".data ∧
    levenshteinDistance "ab" "b" ≤ 1 :=
  ⟨(levenshteinDistance_correct "ab" "b").1,
   (levenshteinDistance_correct "ab" "b").2.1 1
     (EditRel.del 'a' (EditRel.keep 'b' EditRel.nil))⟩

/-! ## Score bounds (C5) -/

/-- The word-match ratio lies in `[0, 1]`. -/
theorem compareWordArrays_score_bounds (expected actual : List String) :
    0 ≤ (compareWordArrays expected actual).score ∧
      (compareWordArrays expected actual).score ≤ 1 := by
  have hcount : (matchStep expected actual 0).2.2 ≤ expected.length := by
    rw [matchStep_count_eq_length]
    have h := matchStep_total_length expected actual 0
    omega
  have hs : (compareWordArrays expected actual).score =
      (if expected.length > 0
       then ((matchStep expected actual 0).2.2 : ℚ) / (expected.length : ℚ)
       else 0) := rfl
  rw [hs]
  split_ifs with hpos
  · have hlen : (0 : ℚ) < (expected.length : ℚ) := by exact_mod_cast hpos
    constructor
    · exact div_nonneg (by positivity) (le_of_lt hlen)
    · rw [div_le_one hlen]
      exact_mod_cast hcount
  · norm_num

/-- The character similarity lies in `[0, 1]`. -/
theorem calculateLevenshteinSimilarity_bounds (a b : String) :
    0 ≤ calculateLevenshteinSimilarity a b ∧
      calculateLevenshteinSimilarity a b ≤ 1 := by
  unfold calculateLevenshteinSimilarity
  split_ifs with h
  · norm_num
  · have hd : levenshteinDistance a b ≤ max a.length b.length := by
      rw [levenshteinDistance_eq_lev]
      exact lev_le_max a.data b.data
    have hmax : (0 : ℚ) < (max a.length b.length : ℚ) := by
      have hp : 0 < max a.length b.length := Nat.pos_of_ne_zero h
      exact_mod_cast hp
    have hdiv1 : (levenshteinDistance a b : ℚ) / (max a.length b.length : ℚ) ≤ 1 := by
      rw [div_le_one hmax]
      exact_mod_cast hd
    have hdiv0 : 0 ≤ (levenshteinDistance a b : ℚ) / (max a.length b.length : ℚ) :=
      div_nonneg (by positivity) (le_of_lt hmax)
    rw [Nat.cast_max]
    constructor <;> linarith

/-- **C5**: the score returned by `compareTexts` always lies in `[0, 1]`,
on the exact path and on the fuzzy path. -/
theorem compareTexts_score_bounds (expected actual : String) :
    0 ≤ (compareTexts expected actual).score ∧
      (compareTexts expected actual).score ≤ 1 := by
  unfold compareTexts
  by_cases h : normalizeArabicText expected = normalizeArabicText actual
  · simp [h]
  · simp only [if_neg h]
    have hw := compareWordArrays_score_bounds
      (splitWords (normalizeArabicText expected))
      (splitWords (normalizeArabicText actual))
    have hc := calculateLevenshteinSimilarity_bounds
      (normalizeArabicText expected) (normalizeArabicText actual)
    constructor
    · nlinarith [hw.1, hw.2, hc.1, hc.2]
    · nlinarith [hw.1, hw.2, hc.1, hc.2]

/-! ## Normalizer invariants (towards C6, C7) -/

/-- Spec-side predicate (C6): a character that must not survive
normalization — a tashkeel mark, one of the collapsed letter variants, or
an upper-case ASCII letter. -/
def forbiddenChar (c : Char) : Bool :=
  isTashkeel c || c = 'آ' || c = 'أ' || c = 'إ' || c = 'ة' || c = 'ى' || c = 'ئ' ||
    (65 ≤ c.toNat && c.toNat ≤ 90)

/-- Spec-side predicate (C6): no two adjacent whitespace characters. -/
def noDoubleWhitespace : List Char → Bool
  | a :: b :: rest => (!(isJsWhitespace a && isJsWhitespace b)) && noDoubleWhitespace (b :: rest)
  | _ => true

/-- Spec-side predicate (C6): no whitespace at either end. -/
def noEdgeWhitespace (l : List Char) : Bool :=
  (match l.head? with
   | some c => !isJsWhitespace c
   | none => true) &&
  (match l.getLast? with
   | some c => !isJsWhitespace c
   | none => true)

/-- Characters are determined by their code points. -/
theorem char_toNat_inj {a b : Char} (h : a.toNat = b.toNat) : a = b := by
  have ha := Char.ofNat_toNat a
  rw [← ha, h, Char.ofNat_toNat]

theorem jsToLower_eq_ite (c : Char) :
    jsToLower c =
      if c.toNat ≥ 65 ∧ c.toNat ≤ 90 then Char.ofNat (c.toNat + 32) else c := rfl

theorem jsToLower_toNat (c : Char) :
    (jsToLower c).toNat =
      if c.toNat ≥ 65 ∧ c.toNat ≤ 90 then c.toNat + 32 else c.toNat := by
  rw [jsToLower_eq_ite]
  split_ifs with h
  · have hv : (c.toNat + 32).isValidChar := Or.inl (by omega)
    unfold Char.ofNat
    rw [dif_pos hv]
    rfl
  · rfl

theorem jsToLower_eq_of_not_upper {c : Char} (h : ¬(c.toNat ≥ 65 ∧ c.toNat ≤ 90)) :
    jsToLower c = c := by
  rw [jsToLower_eq_ite, if_neg h]

/-- Lower-casing does not change whitespace status. -/
theorem isJsWhitespace_jsToLower (c : Char) :
    isJsWhitespace (jsToLower c) = isJsWhitespace c := by
  rw [Bool.eq_iff_iff]
  simp only [isJsWhitespace, Bool.or_eq_true, decide_eq_true_eq, Bool.and_eq_true]
  rw [jsToLower_toNat]
  by_cases h : c.toNat ≥ 65 ∧ c.toNat ≤ 90
  · rw [if_pos h]
    omega
  · rw [if_neg h]

/-- Lower-casing is idempotent. -/
theorem jsToLower_idem (c : Char) : jsToLower (jsToLower c) = jsToLower c := by
  apply jsToLower_eq_of_not_upper
  rw [jsToLower_toNat]
  by_cases h : c.toNat ≥ 65 ∧ c.toNat ≤ 90
  · rw [if_pos h]
    omega
  · rw [if_neg h]
    exact h

/-- After the three letter maps, a tashkeel-free character is free of all
tashkeel marks and collapsed variants. -/
theorem mapped_char_clean (e : Char) (he : isTashkeel e = false) :
    isTashkeel (mapYeh (mapTehMarbuta (mapAlef e))) = false ∧
    mapYeh (mapTehMarbuta (mapAlef e)) ≠ 'آ' ∧
    mapYeh (mapTehMarbuta (mapAlef e)) ≠ 'أ' ∧
    mapYeh (mapTehMarbuta (mapAlef e)) ≠ 'إ' ∧
    mapYeh (mapTehMarbuta (mapAlef e)) ≠ 'ة' ∧
    mapYeh (mapTehMarbuta (mapAlef e)) ≠ 'ى' ∧
    mapYeh (mapTehMarbuta (mapAlef e)) ≠ 'ئ' := by
  unfold mapAlef mapTehMarbuta mapYeh
  split_ifs with h1 h2 h3 h4 h5 h6 h7 <;> simp_all <;> decide

/-- A character equality is a code-point equality. -/
theorem char_eq_iff_toNat (c k : Char) : c = k ↔ c.toNat = k.toNat :=
  ⟨fun h => by rw [h], fun h => char_toNat_inj h⟩

/-- Numeric sufficient condition for a character not to be forbidden. -/
theorem forbiddenChar_eq_false (c : Char)
    (h : ¬((0x64b ≤ c.toNat ∧ c.toNat ≤ 0x65f) ∨ c.toNat = 0x670 ∨
      (0x6d6 ≤ c.toNat ∧ c.toNat ≤ 0x6ed) ∨ c.toNat = 1570 ∨ c.toNat = 1571 ∨
      c.toNat = 1573 ∨ c.toNat = 1577 ∨ c.toNat = 1609 ∨ c.toNat = 1574 ∨
      (65 ≤ c.toNat ∧ c.toNat ≤ 90))) :
    forbiddenChar c = false := by
  rw [Bool.eq_false_iff]
  intro hT
  apply h
  simp only [forbiddenChar, isTashkeel, Bool.or_eq_true, decide_eq_true_eq,
    Bool.and_eq_true, char_eq_iff_toNat] at hT
  have k1 : Char.toNat 'آ' = 1570 := by decide
  have k2 : Char.toNat 'أ' = 1571 := by decide
  have k3 : Char.toNat 'إ' = 1573 := by decide
  have k4 : Char.toNat 'ة' = 1577 := by decide
  have k5 : Char.toNat 'ى' = 1609 := by decide
  have k6 : Char.toNat 'ئ' = 1574 := by decide
  omega

/-- A character clean of tashkeel and variants stays clean (and gains
lower case) under `jsToLower`. -/
theorem forbiddenChar_jsToLower (d : Char) (h1 : isTashkeel d = false)
    (h2 : d ≠ 'آ') (h3 : d ≠ 'أ') (h4 : d ≠ 'إ') (h5 : d ≠ 'ة')
    (h6 : d ≠ 'ى') (h7 : d ≠ 'ئ') :
    forbiddenChar (jsToLower d) = false := by
  have hn2 : d.toNat ≠ 1570 := fun h => h2 (char_toNat_inj (by rw [h]; decide))
  have hn3 : d.toNat ≠ 1571 := fun h => h3 (char_toNat_inj (by rw [h]; decide))
  have hn4 : d.toNat ≠ 1573 := fun h => h4 (char_toNat_inj (by rw [h]; decide))
  have hn5 : d.toNat ≠ 1577 := fun h => h5 (char_toNat_inj (by rw [h]; decide))
  have hn6 : d.toNat ≠ 1609 := fun h => h6 (char_toNat_inj (by rw [h]; decide))
  have hn7 : d.toNat ≠ 1574 := fun h => h7 (char_toNat_inj (by rw [h]; decide))
  have hn1 : ¬((0x64b ≤ d.toNat ∧ d.toNat ≤ 0x65f) ∨ d.toNat = 0x670 ∨
      (0x6d6 ≤ d.toNat ∧ d.toNat ≤ 0x6ed)) := by
    rw [Bool.eq_false_iff] at h1
    intro hx
    apply h1
    simp only [isTashkeel, Bool.or_eq_true, decide_eq_true_eq, Bool.and_eq_true]
    omega
  apply forbiddenChar_eq_false
  intro hx
  rw [jsToLower_toNat] at hx
  by_cases hu : d.toNat ≥ 65 ∧ d.toNat ≤ 90
  · rw [if_pos hu] at hx
    omega
  · rw [if_neg hu] at hx
    omega

/-- Every character emitted by the collapse is the replacement space or a
non-whitespace input character. -/
theorem collapseAux_mem (b : Bool) (l : List Char) : ∀ c ∈ collapseAux b l,
    c = ' ' ∨ (c ∈ l ∧ isJsWhitespace c = false) := by
  induction l generalizing b with
  | nil => simp [collapseAux]
  | cons x xs ih =>
    intro c hc
    by_cases hx : isJsWhitespace x
    · rw [show collapseAux b (x :: xs) =
          (if b then collapseAux true xs else ' ' :: collapseAux true xs)
          from by rw [collapseAux, if_pos hx]] at hc
      by_cases hb : b
      · rw [if_pos hb] at hc
        rcases ih true c hc with h | h
        · exact Or.inl h
        · exact Or.inr ⟨List.mem_cons_of_mem x h.1, h.2⟩
      · rw [if_neg hb] at hc
        rcases List.mem_cons.mp hc with h | h
        · exact Or.inl h
        · rcases ih true c h with h2 | h2
          · exact Or.inl h2
          · exact Or.inr ⟨List.mem_cons_of_mem x h2.1, h2.2⟩
    · rw [show collapseAux b (x :: xs) = x :: collapseAux false xs
          from by rw [collapseAux, if_neg hx]] at hc
      rcases List.mem_cons.mp hc with h | h
      · subst h
        exact Or.inr ⟨List.mem_cons_self c xs, by simpa using hx⟩
      · rcases ih false c h with h2 | h2
        · exact Or.inl h2
        · exact Or.inr ⟨List.mem_cons_of_mem x h2.1, h2.2⟩

/-- In skip state the collapse never starts with whitespace. -/
theorem collapseAux_true_head (l : List Char) : ∀ c : Char,
    (collapseAux true l).head? = some c → isJsWhitespace c = false := by
  induction l with
  | nil => intro c hc; simp [collapseAux] at hc
  | cons x xs ih =>
    intro c hc
    by_cases hx : isJsWhitespace x
    · rw [show collapseAux true (x :: xs) = collapseAux true xs
          from by rw [collapseAux, if_pos hx, if_pos rfl]] at hc
      exact ih c hc
    · rw [show collapseAux true (x :: xs) = x :: collapseAux false xs
          from by rw [collapseAux, if_neg hx]] at hc
      simp only [List.head?_cons, Option.some_inj] at hc
      subst hc
      simpa using hx

/-- `noDoubleWhitespace` only looks at the head pair and the tail. -/
theorem noDoubleWhitespace_cons (a : Char) (l : List Char) :
    noDoubleWhitespace (a :: l) = true ↔
      ((∀ b, l.head? = some b → ¬(isJsWhitespace a = true ∧ isJsWhitespace b = true)) ∧
        noDoubleWhitespace l = true) := by
  cases l with
  | nil => simp [noDoubleWhitespace]
  | cons b rest =>
    simp only [noDoubleWhitespace, Bool.and_eq_true, Bool.not_eq_true',
      Bool.and_eq_false_iff, List.head?_cons, Option.some_inj]
    constructor
    · rintro ⟨h1, h2⟩
      refine ⟨fun b2 hb2 => ?_, h2⟩
      subst hb2
      rintro ⟨ha, hb⟩
      rcases h1 with h | h
      · rw [h] at ha; exact Bool.noConfusion ha
      · rw [h] at hb; exact Bool.noConfusion hb
    · rintro ⟨h1, h2⟩
      refine ⟨?_, h2⟩
      have := h1 b rfl
      by_cases ha : isJsWhitespace a
      · right
        by_contra hb
        exact this ⟨by simpa using ha, by simpa using hb⟩
      · left
        simpa using ha

/-- The collapse output has no two adjacent whitespace characters. -/
theorem collapseAux_noDouble (l : List Char) : ∀ b : Bool,
    noDoubleWhitespace (collapseAux b l) = true := by
  induction l with
  | nil => intro b; rfl
  | cons x xs ih =>
    intro b
    by_cases hx : isJsWhitespace x
    · rw [show collapseAux b (x :: xs) =
          (if b then collapseAux true xs else ' ' :: collapseAux true xs)
          from by rw [collapseAux, if_pos hx]]
      by_cases hb : b
      · rw [if_pos hb]; exact ih true
      · rw [if_neg hb]
        rw [noDoubleWhitespace_cons]
        refine ⟨fun c hc => ?_, ih true⟩
        rintro ⟨_, hcw⟩
        rw [collapseAux_true_head xs c hc] at hcw
        exact Bool.noConfusion hcw
    · rw [show collapseAux b (x :: xs) = x :: collapseAux false xs
          from by rw [collapseAux, if_neg hx]]
      rw [noDoubleWhitespace_cons]
      refine ⟨fun c hc => ?_, ih false⟩
      rintro ⟨hxw, _⟩
      rw [show isJsWhitespace x = false from by simpa using hx] at hxw
      exact Bool.noConfusion hxw

/-- The first survivor of a `dropWhile` fails the predicate. -/
theorem dropWhile_head_not (p : Char → Bool) (l : List Char) :
    ∀ c, (l.dropWhile p).head? = some c → p c = false := by
  induction l with
  | nil => intro c hc; simp at hc
  | cons x xs ih =>
    intro c hc
    by_cases hx : p x
    · rw [List.dropWhile_cons_of_pos hx] at hc
      exact ih c hc
    · rw [List.dropWhile_cons_of_neg hx] at hc
      simp only [List.head?_cons, Option.some_inj] at hc
      subst hc
      simpa using hx

/-- `dropWhile` removes a prefix. -/
theorem exists_append_dropWhile (p : Char → Bool) (l : List Char) :
    ∃ t, l = t ++ l.dropWhile p := by
  induction l with
  | nil => exact ⟨[], rfl⟩
  | cons x xs ih =>
    by_cases hx : p x
    · obtain ⟨t, ht⟩ := ih
      exact ⟨x :: t, by rw [List.dropWhile_cons_of_pos hx, List.cons_append, ← ht]⟩
    · exact ⟨[], by rw [List.dropWhile_cons_of_neg hx]; rfl⟩

/-- `noDoubleWhitespace` as a chain of pair conditions. -/
theorem noDouble_iff_chain (l : List Char) :
    noDoubleWhitespace l = true ↔
      List.Chain' (fun a b => ¬(isJsWhitespace a = true ∧ isJsWhitespace b = true)) l := by
  induction l with
  | nil => simp [noDoubleWhitespace]
  | cons a l ih =>
    rw [noDoubleWhitespace_cons, List.chain'_cons', ih]
    constructor
    · rintro ⟨h1, h2⟩
      exact ⟨fun b hb => h1 b hb, h2⟩
    · rintro ⟨h1, h2⟩
      exact ⟨fun b hb => h1 b hb, h2⟩

/-- The pair condition is symmetric, so `noDoubleWhitespace` survives
reversal. -/
theorem noDouble_reverse (l : List Char) :
    noDoubleWhitespace l.reverse = noDoubleWhitespace l := by
  rw [Bool.eq_iff_iff, noDouble_iff_chain, noDouble_iff_chain, List.chain'_reverse]
  constructor
  · intro h
    exact h.imp fun a b hab h2 => hab ⟨h2.2, h2.1⟩
  · intro h
    exact h.imp fun a b hab h2 => hab ⟨h2.2, h2.1⟩

/-- Dropping a prefix keeps `noDoubleWhitespace`. -/
theorem noDouble_append_left (t l : List Char)
    (h : noDoubleWhitespace (t ++ l) = true) : noDoubleWhitespace l = true := by
  induction t with
  | nil => exact h
  | cons a t ih =>
    apply ih
    rw [List.cons_append, noDoubleWhitespace_cons] at h
    exact h.2

/-- Dropping a suffix keeps `noDoubleWhitespace`. -/
theorem noDouble_append_right (l t : List Char)
    (h : noDoubleWhitespace (l ++ t) = true) : noDoubleWhitespace l = true := by
  induction l with
  | nil => rfl
  | cons a l ih =>
    rw [List.cons_append, noDoubleWhitespace_cons] at h
    rw [noDoubleWhitespace_cons]
    refine ⟨fun b hb => ?_, ih h.2⟩
    apply h.1 b
    cases l with
    | nil => simp at hb
    | cons x xs => simpa using hb

/-- Characters of the trimmed list come from the original. -/
theorem trimWhitespace_subset {c : Char} {l : List Char}
    (h : c ∈ trimWhitespace l) : c ∈ l := by
  unfold trimWhitespace at h
  rw [List.mem_reverse] at h
  have h2 := (List.dropWhile_sublist isJsWhitespace).subset h
  rw [List.mem_reverse] at h2
  exact (List.dropWhile_sublist isJsWhitespace).subset h2

/-- Trimming keeps `noDoubleWhitespace`. -/
theorem trimWhitespace_noDouble (l : List Char)
    (h : noDoubleWhitespace l = true) :
    noDoubleWhitespace (trimWhitespace l) = true := by
  unfold trimWhitespace
  obtain ⟨t1, ht1⟩ := exists_append_dropWhile isJsWhitespace l
  have hY : noDoubleWhitespace (l.dropWhile isJsWhitespace) = true :=
    noDouble_append_left t1 _ (ht1 ▸ h)
  obtain ⟨t2, ht2⟩ :=
    exists_append_dropWhile isJsWhitespace (l.dropWhile isJsWhitespace).reverse
  rw [noDouble_reverse]
  apply noDouble_append_left t2
  rw [← ht2, noDouble_reverse]
  exact hY

/-- The head survivor of the trim is not whitespace. -/
theorem trimWhitespace_head (l : List Char) :
    ∀ c, (trimWhitespace l).head? = some c → isJsWhitespace c = false := by
  intro c hc
  unfold trimWhitespace at hc
  obtain ⟨t2, ht2⟩ :=
    exists_append_dropWhile isJsWhitespace (l.dropWhile isJsWhitespace).reverse
  have hpref : (l.dropWhile isJsWhitespace) =
      ((l.dropWhile isJsWhitespace).reverse.dropWhile isJsWhitespace).reverse
        ++ t2.reverse := by
    have := congrArg List.reverse ht2
    rwa [List.reverse_reverse, List.reverse_append] at this
  have hY : (l.dropWhile isJsWhitespace).head? = some c := by
    rw [hpref, List.head?_append, hc]
    rfl
  exact dropWhile_head_not isJsWhitespace l c hY

/-- The last survivor of the trim is not whitespace. -/
theorem trimWhitespace_getLast (l : List Char) :
    ∀ c, (trimWhitespace l).getLast? = some c → isJsWhitespace c = false := by
  intro c hc
  unfold trimWhitespace at hc
  rw [List.getLast?_reverse] at hc
  exact dropWhile_head_not isJsWhitespace _ c hc

/-- Lower-casing both members of a pair does not affect the
double-whitespace check. -/
theorem noDouble_map_toLower (l : List Char) :
    noDoubleWhitespace (l.map jsToLower) = noDoubleWhitespace l := by
  induction l with
  | nil => rfl
  | cons a l ih =>
    cases l with
    | nil => rfl
    | cons b r =>
      simp only [List.map_cons] at ih ⊢
      rw [show noDoubleWhitespace (jsToLower a :: jsToLower b :: List.map jsToLower r) =
          ((!(isJsWhitespace (jsToLower a) && isJsWhitespace (jsToLower b))) &&
            noDoubleWhitespace (jsToLower b :: List.map jsToLower r)) from rfl,
        show noDoubleWhitespace (a :: b :: r) =
          ((!(isJsWhitespace a && isJsWhitespace b)) &&
            noDoubleWhitespace (b :: r)) from rfl,
        isJsWhitespace_jsToLower, isJsWhitespace_jsToLower, ih]

theorem getLast_map_toLower (l : List Char) :
    (l.map jsToLower).getLast? = l.getLast?.map jsToLower := by
  rw [← List.head?_reverse, ← List.map_reverse, List.head?_map, List.head?_reverse]

/-- Combined character/shape invariants of the normalizer output: every
character is clean and lower-case-fixed, whitespace only as single interior
spaces. -/
theorem normalize_output_props (s : String) :
    (∀ c ∈ (normalizeArabicText s).data,
      forbiddenChar c = false ∧ (isJsWhitespace c = true → c = ' ') ∧
        jsToLower c = c) ∧
    noDoubleWhitespace (normalizeArabicText s).data = true ∧
    (∀ c, (normalizeArabicText s).data.head? = some c →
      isJsWhitespace c = false) ∧
    (∀ c, (normalizeArabicText s).data.getLast? = some c →
      isJsWhitespace c = false) := by
  by_cases hs : s = ""
  · subst hs
    refine ⟨?_, ?_, ?_, ?_⟩ <;> simp [normalizeArabicText, noDoubleWhitespace]
  · rw [show normalizeArabicText s = String.mk (List.map jsToLower
      (trimWhitespace (collapseWhitespace (List.map mapYeh (List.map mapTehMarbuta
        (List.map mapAlef (List.filter (fun c => !isTashkeel c) s.data)))))))
      from by rw [normalizeArabicText, if_neg hs]]
    refine ⟨?_, ?_, ?_, ?_⟩
    · intro c hc
      rw [show (String.mk (List.map jsToLower (trimWhitespace (collapseWhitespace
          (List.map mapYeh (List.map mapTehMarbuta (List.map mapAlef
            (List.filter (fun c => !isTashkeel c) s.data)))))))).data =
          List.map jsToLower (trimWhitespace (collapseWhitespace (List.map mapYeh
            (List.map mapTehMarbuta (List.map mapAlef
              (List.filter (fun c => !isTashkeel c) s.data)))))) from rfl] at hc
      obtain ⟨d, hd, rfl⟩ := List.mem_map.mp hc
      have hdC := trimWhitespace_subset hd
      rcases collapseAux_mem false _ d hdC with hsp | ⟨hdL, hdw⟩
      · subst hsp
        refine ⟨by decide, fun _ => by decide, by decide⟩
      · obtain ⟨d2, hd2, rfl⟩ := List.mem_map.mp hdL
        obtain ⟨d3, hd3, rfl⟩ := List.mem_map.mp hd2
        obtain ⟨e, he, rfl⟩ := List.mem_map.mp hd3
        have heT : isTashkeel e = false := by
          have := (List.mem_filter.mp he).2
          simpa using this
        have mc := mapped_char_clean e heT
        refine ⟨forbiddenChar_jsToLower _ mc.1 mc.2.1 mc.2.2.1 mc.2.2.2.1
          mc.2.2.2.2.1 mc.2.2.2.2.2.1 mc.2.2.2.2.2.2, ?_, jsToLower_idem _⟩
        intro hW
        rw [isJsWhitespace_jsToLower, hdw] at hW
        exact Bool.noConfusion hW
    · rw [show (String.mk (List.map jsToLower (trimWhitespace (collapseWhitespace
          (List.map mapYeh (List.map mapTehMarbuta (List.map mapAlef
            (List.filter (fun c => !isTashkeel c) s.data)))))))).data =
          List.map jsToLower (trimWhitespace (collapseWhitespace (List.map mapYeh
            (List.map mapTehMarbuta (List.map mapAlef
              (List.filter (fun c => !isTashkeel c) s.data)))))) from rfl,
        noDouble_map_toLower]
      exact trimWhitespace_noDouble _ (collapseAux_noDouble _ false)
    · intro c hc
      rw [show (String.mk (List.map jsToLower (trimWhitespace (collapseWhitespace
          (List.map mapYeh (List.map mapTehMarbuta (List.map mapAlef
            (List.filter (fun c => !isTashkeel c) s.data)))))))).data =
          List.map jsToLower (trimWhitespace (collapseWhitespace (List.map mapYeh
            (List.map mapTehMarbuta (List.map mapAlef
              (List.filter (fun c => !isTashkeel c) s.data)))))) from rfl,
        List.head?_map] at hc
      obtain ⟨d, hd, rfl⟩ := Option.map_eq_some'.mp hc
      rw [isJsWhitespace_jsToLower]
      exact trimWhitespace_head _ d hd
    · intro c hc
      rw [show (String.mk (List.map jsToLower (trimWhitespace (collapseWhitespace
          (List.map mapYeh (List.map mapTehMarbuta (List.map mapAlef
            (List.filter (fun c => !isTashkeel c) s.data)))))))).data =
          List.map jsToLower (trimWhitespace (collapseWhitespace (List.map mapYeh
            (List.map mapTehMarbuta (List.map mapAlef
              (List.filter (fun c => !isTashkeel c) s.data)))))) from rfl,
        getLast_map_toLower] at hc
      obtain ⟨d, hd, rfl⟩ := Option.map_eq_some'.mp hc
      rw [isJsWhitespace_jsToLower]
      exact trimWhitespace_getLast _ d hd

/-- Partial normalizer invariant (development lemma): the output never
contains tashkeel marks, alef variants, teh marbuta, yeh variants or
upper-case ASCII letters, has no two adjacent whitespace characters, no
whitespace at either end, and empty input yields the empty string.  The
upper-case clause is limited to ASCII because `jsToLower` embeds only the
ASCII part of `String.prototype.toLowerCase`; the full "no upper-case
non-Arabic letters" property of the program depends on the engine's Unicode
case tables, which this embedding does not carry. -/
theorem normalizeArabicText_invariant (s : String) :
    (normalizeArabicText s).data.all (fun c => !forbiddenChar c) = true ∧
    noDoubleWhitespace (normalizeArabicText s).data = true ∧
    noEdgeWhitespace (normalizeArabicText s).data = true ∧
    normalizeArabicText "" = "" := by
  obtain ⟨h1, h2, h3, h4⟩ := normalize_output_props s
  refine ⟨?_, h2, ?_, by decide⟩
  · rw [List.all_eq_true]
    intro c hc
    rw [(h1 c hc).1]
    rfl
  · unfold noEdgeWhitespace
    rw [Bool.and_eq_true]
    constructor
    · cases hh : (normalizeArabicText s).data.head? with
      | none => rfl
      | some c => simp [h3 c hh]
    · cases hl : (normalizeArabicText s).data.getLast? with
      | none => rfl
      | some c => simp [h4 c hl]

/-! ## Idempotence machinery (C7) -/

theorem forbiddenChar_elim {c : Char} (h : forbiddenChar c = false) :
    isTashkeel c = false ∧ c ≠ 'آ' ∧ c ≠ 'أ' ∧ c ≠ 'إ' ∧ c ≠ 'ة' ∧
      c ≠ 'ى' ∧ c ≠ 'ئ' := by
  simp only [forbiddenChar, Bool.or_eq_false_iff, decide_eq_false_iff_not] at h
  obtain ⟨⟨⟨⟨⟨⟨⟨ht, hA⟩, hB⟩, hC⟩, hD⟩, hE⟩, hF⟩, _⟩ := h
  exact ⟨ht, hA, hB, hC, hD, hE, hF⟩

theorem map_id_of_fixed {f : Char → Char} (l : List Char)
    (h : ∀ c ∈ l, f c = c) : l.map f = l := by
  induction l with
  | nil => rfl
  | cons a l ih =>
    rw [List.map_cons, h a (List.mem_cons_self a l),
      ih (fun c hc => h c (List.mem_cons_of_mem a hc))]

theorem filter_id_of_clean (l : List Char)
    (h : ∀ c ∈ l, isTashkeel c = false) :
    l.filter (fun c => !isTashkeel c) = l :=
  List.filter_eq_self.mpr (fun a ha => by rw [h a ha]; rfl)

theorem mapAlef_id {c : Char} (h2 : c ≠ 'آ') (h3 : c ≠ 'أ') (h4 : c ≠ 'إ') :
    mapAlef c = c := by
  simp [mapAlef, h2, h3, h4]

theorem mapTehMarbuta_id {c : Char} (h : c ≠ 'ة') : mapTehMarbuta c = c := by
  simp [mapTehMarbuta, h]

theorem mapYeh_id {c : Char} (h6 : c ≠ 'ى') (h7 : c ≠ 'ئ') : mapYeh c = c := by
  simp [mapYeh, h6, h7]

/-- Collapsing is the identity on lists whose whitespace is already single
interior spaces. -/
theorem collapseAux_id (l : List Char) :
    (∀ c ∈ l, isJsWhitespace c = true → c = ' ') →
    noDoubleWhitespace l = true →
    (collapseAux false l = l ∧
      ((∀ c, l.head? = some c → isJsWhitespace c = false) →
        collapseAux true l = l)) := by
  induction l with
  | nil => intro _ _; exact ⟨rfl, fun _ => rfl⟩
  | cons x xs ih =>
    intro hsp hnd
    have hsp2 : ∀ c ∈ xs, isJsWhitespace c = true → c = ' ' :=
      fun c hc => hsp c (List.mem_cons_of_mem x hc)
    have hnd2 := (noDoubleWhitespace_cons x xs).mp hnd
    have ihx := ih hsp2 hnd2.2
    constructor
    · by_cases hx : isJsWhitespace x
      · have hxs : x = ' ' := hsp x (List.mem_cons_self x xs) (by simpa using hx)
        rw [show collapseAux false (x :: xs) = ' ' :: collapseAux true xs from by
          rw [collapseAux, if_pos hx, if_neg Bool.false_ne_true]]
        have hxh : ∀ c, xs.head? = some c → isJsWhitespace c = false := by
          intro c hc
          by_contra hcc
          exact (hnd2.1 c hc) ⟨by simpa using hx, by simpa using hcc⟩
        rw [ihx.2 hxh, hxs]
      · rw [show collapseAux false (x :: xs) = x :: collapseAux false xs from by
          rw [collapseAux, if_neg hx]]
        rw [ihx.1]
    · intro hh
      have hx : isJsWhitespace x = false := hh x rfl
      rw [show collapseAux true (x :: xs) = x :: collapseAux false xs from by
        rw [collapseAux, if_neg (by simp [hx])]]
      rw [ihx.1]

theorem dropWhile_id_of_head (p : Char → Bool) (l : List Char)
    (h : ∀ c, l.head? = some c → p c = false) : l.dropWhile p = l := by
  cases l with
  | nil => rfl
  | cons x xs => rw [List.dropWhile_cons_of_neg (by simp [h x rfl])]

/-- Trimming is the identity when both ends are not whitespace. -/
theorem trimWhitespace_id (l : List Char)
    (hh : ∀ c, l.head? = some c → isJsWhitespace c = false)
    (hl : ∀ c, l.getLast? = some c → isJsWhitespace c = false) :
    trimWhitespace l = l := by
  unfold trimWhitespace
  rw [dropWhile_id_of_head _ l hh,
    dropWhile_id_of_head _ l.reverse
      (fun c hc => hl c (by rwa [List.head?_reverse] at hc)),
    List.reverse_reverse]

/-- **C7**: normalization is idempotent. -/
theorem normalizeArabicText_idem (s : String) :
    normalizeArabicText (normalizeArabicText s) = normalizeArabicText s := by
  obtain ⟨h1, h2, h3, h4⟩ := normalize_output_props s
  by_cases hz : normalizeArabicText s = ""
  · rw [hz]
    decide
  · rw [normalizeArabicText, if_neg hz]
    rw [filter_id_of_clean _ (fun c hc => (forbiddenChar_elim (h1 c hc).1).1)]
    rw [map_id_of_fixed _ (fun c hc => mapAlef_id
      (forbiddenChar_elim (h1 c hc).1).2.1
      (forbiddenChar_elim (h1 c hc).1).2.2.1
      (forbiddenChar_elim (h1 c hc).1).2.2.2.1)]
    rw [map_id_of_fixed _ (fun c hc => mapTehMarbuta_id
      (forbiddenChar_elim (h1 c hc).1).2.2.2.2.1)]
    rw [map_id_of_fixed _ (fun c hc => mapYeh_id
      (forbiddenChar_elim (h1 c hc).1).2.2.2.2.2.1
      (forbiddenChar_elim (h1 c hc).1).2.2.2.2.2.2)]
    rw [show collapseWhitespace (normalizeArabicText s).data =
        collapseAux false (normalizeArabicText s).data from rfl]
    rw [(collapseAux_id _ (fun c hc => (h1 c hc).2.1) h2).1]
    rw [trimWhitespace_id _ h3 h4]
    rw [map_id_of_fixed _ (fun c hc => (h1 c hc).2.2)]
